import Mathlib

/-!
# G.722 to G.711 A-law conversion: embedding of `main.go`

The Go program decodes a G.722 stream to 16-bit linear PCM, keeps every second
sample and compands it to 8-bit A-law.  This file embeds the pure part of
`main.go` (`search`, `Linear2Alaw`, `pcm16bytes`, `pcm16ToAlaw`) and proves
properties of it.  The encoder `g711.ALawEncodeSample` of the imported package
`github.com/pd0mz/go-g711` is not part of the repository; `pcm16ToAlaw` takes
it as a parameter.

Conventions of the embedding:
* a Go `int16` / `int` value is a Lean `Int`; the places where a 16-bit result
  could wrap go through `wrap16`;
* a Go `byte` / `uint8` is a `Nat` below 256, produced by `toByte`;
* a slice is a `List`; an index out of range or a negative shift count is a
  run-time panic in Go and is `none` here.
-/

namespace G722ToG711

/-! ## Machine arithmetic -/

/-- Conversion of an integer to Go `int16`: two's-complement wrap-around. -/
def wrap16 (x : Int) : Int := (x + 32768) % 65536 - 32768

/-- Conversion of an integer to Go `byte`: the low eight bits. -/
def toByte (x : Int) : Nat := (x % 256).toNat

/-- Conversion of an integer to Go `uint16`: the low sixteen bits. -/
def uint16 (x : Int) : Nat := (x % 65536).toNat

/-- The sample domain of Go `int16`. -/
def isInt16 (v : Int) : Prop := -32768 ≤ v ∧ v ≤ 32767

instance (v : Int) : Decidable (isInt16 v) := by
  unfold isInt16; exact inferInstance

/-! ## Constants (main.go lines 19-29) -/

/-- Sign bit for an A-law byte. -/
def SIGN_BIT : Nat := 0x80
/-- Quantization field mask. -/
def QUANT_MASK : Int := 0xf
/-- Number of A-law segments. -/
def NSEGS : Nat := 8
/-- Left shift for segment number. -/
def SEG_SHIFT : Nat := 4
/-- Segment field mask. -/
def SEG_MASK : Nat := 0x70

/-- The segment end points, `var segEnd = [8]int16{...}`. -/
def segEnd : List Int :=
  [0xFF, 0x1FF, 0x3FF, 0x7FF, 0xFFF, 0x1FFF, 0x3FFF, 0x7FFF]

/-! ## `search` (main.go lines 31-38) -/

/-- The loop of `search`: the first argument counts the iterations that remain
(`size - i`), the second is the loop index `i`.  Reading `table[i]` outside the
slice is a panic (`none`). -/
def searchLoop (val : Int) (table : List Int) (size : Int) : Nat → Nat → Option Int
  | 0, _ => some size
  | n + 1, i =>
    match table[i]? with
    | none => none
    | some t => if val ≤ t then some (i : Int) else searchLoop val table size n (i + 1)

/-- Go `search(val, table, size)`: `for i := 0; i < size; i++` returning the
first `i` with `val <= table[i]`, and `size` when the loop runs out. -/
def search (val : Int) (table : List Int) (size : Int) : Option Int :=
  searchLoop val table size size.toNat 0

/-! ## `Linear2Alaw` (main.go lines 43-82) -/

/-- Line 49, `pcmVal >>= 3`: arithmetic right shift of the sample. -/
def shifted (pcmVal : Int) : Int := Int.shiftRight pcmVal 3

/-- Lines 51-56, the value of `mask`: `0xD5` for a non-negative shifted sample,
`0x55` otherwise. -/
def signMask (p : Int) : Int := if p ≥ 0 then 0xD5 else 0x55

/-- Lines 51-56, the value of `pcmVal` after the sign test: unchanged when
non-negative, `-pcmVal - 1` in `int16` arithmetic otherwise. -/
def magnitude (p : Int) : Int := if p ≥ 0 then p else wrap16 (-p - 1)

/-- Line 59: the segment number `search(int(pcmVal), segEnd[:], 8)` that
`Linear2Alaw` computes for the sample `pcmVal`. -/
def segmentOf (pcmVal : Int) : Option Int :=
  search (magnitude (shifted pcmVal)) segEnd 8

/-- Lines 62-81: combination of sign, segment and quantization bits.  A shift
by a negative count panics in Go (`none`). -/
def combine (seg pcmVal mask : Int) : Option Nat :=
  if seg ≥ 8 then some (toByte (Int.xor 0x7F mask))
  else
    let aval := toByte (seg * 2 ^ SEG_SHIFT)
    if seg < 2 then
      some ((aval ||| toByte (Int.land (Int.shiftRight pcmVal 4) QUANT_MASK)) ^^^ toByte mask)
    else if seg + 3 < 0 then none
    else
      some ((aval ||| toByte (Int.land (Int.shiftRight pcmVal (seg + 3).toNat) QUANT_MASK))
        ^^^ toByte mask)

/-- Go `Linear2Alaw(pcmVal int16) byte`. -/
def Linear2Alaw (pcmVal : Int) : Option Nat :=
  (segmentOf pcmVal).bind fun seg =>
    combine seg (magnitude (shifted pcmVal)) (signMask (shifted pcmVal))

/-! ## `pcm16bytes` (main.go lines 88-94) -/

/-- Go `binary.LittleEndian.PutUint16(b[off:], v)`: writes the low byte at
`off` and the high byte at `off + 1`; panics when the two bytes do not fit. -/
def PutUint16 (b : List Nat) (off : Nat) (v : Nat) : Option (List Nat) :=
  if off + 1 < b.length then some ((b.set off (v % 256)).set (off + 1) (v / 256 % 256))
  else none

/-- The loop `for i, v := range amp` of `pcm16bytes`, with the index `i` and
the buffer `out` as explicit state. -/
def pcm16bytesLoop : List Int → Nat → List Nat → Option (List Nat)
  | [], _, out => some out
  | v :: rest, i, out =>
    (PutUint16 out (2 * i) (uint16 v)).bind fun out2 => pcm16bytesLoop rest (i + 1) out2

/-- Go `pcm16bytes(amp []int16) []byte`. -/
def pcm16bytes (amp : List Int) : Option (List Nat) :=
  pcm16bytesLoop amp 0 (List.replicate (2 * amp.length) 0)

/-! ## `pcm16ToAlaw` (main.go lines 114-139) -/

/-- The `switch method` of lines 123-129.  Case 1 calls
`g711.ALawEncodeSample` of the imported package `github.com/pd0mz/go-g711`,
whose source is not in the repository: it is the parameter `g711Encode`, a
function of the sample alone that returns a byte or panics (`none`).
`encodedSample` keeps its zero value when `method` is neither 0 nor 1. -/
def encodeSample (g711Encode : Int → Option Nat) (method : Int) (sample : Int) : Option Nat :=
  if method = 0 then Linear2Alaw sample
  else if method = 1 then g711Encode sample
  else some 0

/-- The loop `for _, sample := range samples` of `pcm16ToAlaw`, with
`downsampleCounter` and the buffer as explicit state. -/
def pcm16ToAlawLoop (enc : Int → Option Nat) (method : Int) :
    List Int → Nat → List Nat → Option (List Nat)
  | [], _, buf => some buf
  | sample :: rest, downsampleCounter, buf =>
    if (downsampleCounter + 1) % 2 = 0 then
      (encodeSample enc method sample).bind fun encodedSample =>
        pcm16ToAlawLoop enc method rest (downsampleCounter + 1) (buf ++ [encodedSample])
    else pcm16ToAlawLoop enc method rest (downsampleCounter + 1) buf

/-- Go `pcm16ToAlaw(samples []int16, method int) []byte`; `enc` is the
imported encoder that method 1 calls. -/
def pcm16ToAlaw (enc : Int → Option Nat) (samples : List Int) (method : Int) : Option (List Nat) :=
  pcm16ToAlawLoop enc method samples 0 []

/-! ## Reading a little-endian stream back -/

/-- Re-assembly of a little-endian byte stream into 16-bit samples: each
consecutive pair `low, high` gives `low + 256 * high`, read as a
two's-complement `int16`.  main.go has no reader; this is the inverse against
which the losslessness of `pcm16bytes` is stated. -/
def unpack16 : List Nat → List Int
  | lo :: hi :: rest => wrap16 ((lo : Int) + 256 * (hi : Int)) :: unpack16 rest
  | _ => []

/-! ## Closed forms used in the proofs -/

/-- Segment number of a magnitude below 4096, as nested comparisons with the
first five entries of `segEnd`. -/
def segNat (m : Nat) : Nat :=
  if m ≤ 255 then 0 else if m ≤ 511 then 1 else if m ≤ 1023 then 2
  else if m ≤ 2047 then 3 else 4

/-- Quantization field of a magnitude below 4096. -/
def quantNat (m : Nat) : Nat :=
  if segNat m < 2 then m / 16 % 16 else m / 2 ^ (segNat m + 3) % 16

/-- The byte `Linear2Alaw` returns for magnitude `m` and sign mask `mask`. -/
def codeNat (m mask : Nat) : Nat := (segNat m * 16 ||| quantNat m) ^^^ mask

/-! ## Basic facts about the machine arithmetic -/

theorem toByte_natCast (a : Nat) : toByte (a : Int) = a % 256 := by
  unfold toByte
  omega

theorem land_quant (a : Nat) : Int.land (a : Int) QUANT_MASK = ((a % 16 : Nat) : Int) := by
  have h : a &&& 15 = a % 16 := by
    have := Nat.and_pow_two_sub_one_eq_mod a 4
    simpa using this
  show ((a &&& 15 : Nat) : Int) = _
  rw [h]

theorem quant_field (n k : Nat) :
    toByte (Int.land (Int.shiftRight (n : Int) k) QUANT_MASK) = n / 2 ^ k % 16 := by
  have h1 : Int.shiftRight (n : Int) k = ((n >>> k : Nat) : Int) := rfl
  rw [h1, land_quant, toByte_natCast, Nat.shiftRight_eq_div_pow]
  omega

theorem combine_natCast (s n : Nat) (hs : s < 8) (mask : Int) :
    combine (s : Int) (n : Int) mask =
      some ((s * 16 ||| (if s < 2 then n / 16 % 16 else n / 2 ^ (s + 3) % 16)) ^^^ toByte mask) := by
  have h8 : ¬ ((s : Int) ≥ 8) := by omega
  have h3 : ¬ ((s : Int) + 3 < 0) := by omega
  have hb : toByte ((s : Int) * 2 ^ SEG_SHIFT) = s * 16 := by
    have : ((s : Int) * 2 ^ SEG_SHIFT) = ((s * 16 : Nat) : Int) := by
      simp [SEG_SHIFT]
    rw [this, toByte_natCast]
    omega
  have ht : ((s : Int) + 3).toNat = s + 3 := by omega
  unfold combine
  rw [if_neg h8]
  simp only [hb, h3, ht, if_false, quant_field]
  by_cases h2 : s < 2
  · have : (s : Int) < 2 := by omega
    simp [h2, this]
  · have : ¬ ((s : Int) < 2) := by omega
    simp [h2, this]

theorem shifted_eq_div (v : Int) : shifted v = v / 8 := by
  have h := Int.shiftRight_eq_div_pow v 3
  simpa [shifted] using h

theorem search_segEnd (m : Int) :
    search m segEnd 8 =
      if m ≤ 255 then some 0 else if m ≤ 511 then some 1 else if m ≤ 1023 then some 2
      else if m ≤ 2047 then some 3 else if m ≤ 4095 then some 4 else if m ≤ 8191 then some 5
      else if m ≤ 16383 then some 6 else if m ≤ 32767 then some 7 else some 8 := by
  simp [search, searchLoop, segEnd]

theorem magnitude_shifted_range (v : Int) (h : isInt16 v) :
    0 ≤ magnitude (shifted v) ∧ magnitude (shifted v) ≤ 4095 := by
  obtain ⟨h1, h2⟩ := h
  rw [shifted_eq_div]
  unfold magnitude wrap16
  split <;> omega

theorem segNat_le (n : Nat) : segNat n ≤ 4 := by
  unfold segNat
  split_ifs <;> omega

theorem segmentOf_closed (v : Int) (h : isInt16 v) :
    segmentOf v = some ((segNat (magnitude (shifted v)).toNat : Nat) : Int) := by
  obtain ⟨h0, h1⟩ := magnitude_shifted_range v h
  unfold segmentOf
  generalize magnitude (shifted v) = m at h0 h1
  obtain ⟨n, rfl⟩ := Int.eq_ofNat_of_zero_le h0
  rw [search_segEnd]
  simp only [Int.toNat_ofNat, segNat]
  have e : ∀ c : Nat, ((n : Int) ≤ (c : Int)) ↔ n ≤ c := fun c => by omega
  have e1 := e 255
  have e2 := e 511
  have e3 := e 1023
  have e4 := e 2047
  have e5 : (n : Int) ≤ 4095 := h1
  simp only [Nat.cast_ofNat] at e1 e2 e3 e4
  simp only [e1, e2, e3, e4, e5, if_true]
  split_ifs <;> rfl

theorem Linear2Alaw_closed (v : Int) (h : isInt16 v) :
    Linear2Alaw v =
      some (codeNat (magnitude (shifted v)).toNat (toByte (signMask (shifted v)))) := by
  obtain ⟨h0, h1⟩ := magnitude_shifted_range v h
  unfold Linear2Alaw
  rw [segmentOf_closed v h]
  generalize magnitude (shifted v) = m at h0 h1
  obtain ⟨n, rfl⟩ := Int.eq_ofNat_of_zero_le h0
  simp only [Option.some_bind, Int.toNat_ofNat]
  rw [combine_natCast _ _ (by have := segNat_le n; omega)]
  rfl

theorem toByte_signMask (p : Int) :
    toByte (signMask p) = if 0 ≤ p then 0xD5 else 0x55 := by
  unfold signMask
  by_cases h : p ≥ 0
  · rw [if_pos h, if_pos h]; rfl
  · rw [if_neg h, if_neg h]; rfl

theorem quantNat_lt (n : Nat) : quantNat n < 16 := by
  unfold quantNat
  split <;> exact Nat.mod_lt _ (by decide)

theorem codeNat_lt (n mask : Nat) (hm : mask < 256) : codeNat n mask < 256 := by
  unfold codeNat
  have h1 : segNat n * 16 < 2 ^ 8 := by have := segNat_le n; omega
  have h2 : quantNat n < 2 ^ 8 := by have := quantNat_lt n; omega
  have h3 : mask < 2 ^ 8 := by omega
  exact Nat.xor_lt_two_pow (Nat.or_lt_two_pow h1 h2) h3

theorem segNat_mono (a b : Nat) (h : a ≤ b) : segNat a ≤ segNat b := by
  unfold segNat
  split_ifs <;> omega

theorem layout_check :
    ∀ s < 5, ∀ q < 16,
      (((((s * 16 ||| q) ^^^ 0xD5) ^^^ 0x55) >>> 4) &&& 7 = s ∧
        (((s * 16 ||| q) ^^^ 0xD5) ^^^ 0x55) &&& 0xF = q ∧
        (((s * 16 ||| q) ^^^ 0xD5) ^^^ 0x55).testBit 7 = true) ∧
      (((((s * 16 ||| q) ^^^ 0x55) ^^^ 0x55) >>> 4) &&& 7 = s ∧
        (((s * 16 ||| q) ^^^ 0x55) ^^^ 0x55) &&& 0xF = q ∧
        (((s * 16 ||| q) ^^^ 0x55) ^^^ 0x55).testBit 7 = false) := by
  decide

/-! ## The serialization loop -/

theorem uint16_lt (x : Int) : uint16 x < 65536 := by
  unfold uint16
  omega

theorem pcm16bytesLoop_spec :
    ∀ (rest : List Int) (i : Nat) (out : List Nat), 2 * (i + rest.length) ≤ out.length →
      ∃ res, pcm16bytesLoop rest i out = some res ∧ res.length = out.length ∧
        (∀ j, j < 2 * i → res[j]? = out[j]?) ∧
        (∀ j x, rest[j]? = some x →
          res[2 * (i + j)]? = some (uint16 x % 256) ∧
          res[2 * (i + j) + 1]? = some (uint16 x / 256 % 256)) := by
  intro rest
  induction rest with
  | nil =>
    intro i out _
    exact ⟨out, rfl, rfl, fun _ _ => rfl, fun j x hx => by simp at hx⟩
  | cons v rest ih =>
    intro i out hlen
    simp only [List.length_cons] at hlen
    have hfit : 2 * i + 1 < out.length := by omega
    obtain ⟨res, hres, hl, hlow, hhigh⟩ :=
      ih (i + 1) ((out.set (2 * i) (uint16 v % 256)).set (2 * i + 1) (uint16 v / 256 % 256))
        (by simp only [List.length_set]; omega)
    simp only [List.length_set] at hl
    refine ⟨res, ?_, hl, ?_, ?_⟩
    · simp only [pcm16bytesLoop, PutUint16, if_pos hfit, Option.some_bind]
      exact hres
    · intro j hj
      rw [hlow j (by omega), List.getElem?_set, List.getElem?_set]
      rw [if_neg (by omega), if_neg (by omega)]
    · intro j x hx
      cases j with
      | zero =>
        simp only [List.getElem?_cons_zero, Option.some.injEq] at hx
        subst hx
        constructor
        · show res[2 * i]? = _
          rw [hlow (2 * i) (by omega), List.getElem?_set, List.getElem?_set]
          rw [if_neg (by omega), if_pos rfl, if_pos (by omega)]
        · show res[2 * i + 1]? = _
          rw [hlow (2 * i + 1) (by omega), List.getElem?_set]
          rw [if_pos rfl, if_pos (by simp only [List.length_set]; omega)]
      | succ j =>
        rw [List.getElem?_cons_succ] at hx
        have e : 2 * (i + (j + 1)) = 2 * (i + 1 + j) := by omega
        rw [e]
        exact hhigh j x hx

/-! ## The decimation loop -/

theorem pcm16ToAlawLoop_buf (enc : Int → Option Nat) (m : Int) :
    ∀ (s : List Int) (c : Nat) (buf : List Nat),
      pcm16ToAlawLoop enc m s c buf =
        (pcm16ToAlawLoop enc m s c []).map fun out => buf ++ out := by
  intro s
  induction s with
  | nil => intro c buf; simp [pcm16ToAlawLoop]
  | cons x rest ih =>
    intro c buf
    simp only [pcm16ToAlawLoop]
    split
    · cases encodeSample enc m x with
      | none => rfl
      | some b =>
        simp only [Option.some_bind]
        rw [ih (c + 1) (buf ++ [b]), ih (c + 1) ([] ++ [b]), Option.map_map]
        congr 1
        funext out
        simp
    · exact ih (c + 1) buf

theorem pcm16ToAlawLoop_add_two (enc : Int → Option Nat) (m : Int) :
    ∀ (s : List Int) (c : Nat) (buf : List Nat),
      pcm16ToAlawLoop enc m s (c + 2) buf = pcm16ToAlawLoop enc m s c buf := by
  intro s
  induction s with
  | nil => intro c buf; rfl
  | cons x rest ih =>
    intro c buf
    have hp : (c + 2 + 1) % 2 = (c + 1) % 2 := by omega
    simp only [pcm16ToAlawLoop, hp]
    have hc : c + 2 + 1 = c + 1 + 2 := by omega
    split
    · congr 1
      funext b
      rw [hc, ih]
    · rw [hc, ih]

theorem pcm16ToAlawLoop_add_even (enc : Int → Option Nat) (m : Int) (s : List Int) (buf : List Nat) :
    ∀ (k c : Nat), pcm16ToAlawLoop enc m s (c + 2 * k) buf = pcm16ToAlawLoop enc m s c buf := by
  intro k
  induction k with
  | zero => intro c; rfl
  | succ k ih =>
    intro c
    have : c + 2 * (k + 1) = c + 2 * k + 2 := by omega
    rw [this, pcm16ToAlawLoop_add_two, ih]

theorem pcm16ToAlawLoop_append (enc : Int → Option Nat) (m : Int) (b : List Int) :
    ∀ (a : List Int) (c : Nat) (buf : List Nat),
      pcm16ToAlawLoop enc m (a ++ b) c buf =
        (pcm16ToAlawLoop enc m a c buf).bind fun x =>
          pcm16ToAlawLoop enc m b (c + a.length) x := by
  intro a
  induction a with
  | nil => intro c buf; simp [pcm16ToAlawLoop]
  | cons x rest ih =>
    intro c buf
    have hc : c + (rest.length + 1) = c + 1 + rest.length := by omega
    simp only [List.cons_append, pcm16ToAlawLoop, List.length_cons, hc]
    split
    · cases encodeSample enc m x with
      | none => rfl
      | some y => simp only [Option.some_bind]; exact ih _ _
    · exact ih _ _

theorem pcm16ToAlaw_cons_cons (enc : Int → Option Nat) (m : Int) (x y : Int) (rest : List Int) :
    pcm16ToAlaw enc (x :: y :: rest) m =
      (encodeSample enc m y).bind fun b =>
        (pcm16ToAlaw enc rest m).map fun out => b :: out := by
  simp only [pcm16ToAlaw, pcm16ToAlawLoop]
  have h1 : ¬ ((0 + 1) % 2 = 0) := by decide
  rw [if_neg h1, if_pos trivial]
  congr 1
  funext b
  rw [pcm16ToAlawLoop_add_two enc m rest 0, pcm16ToAlawLoop_buf]
  rfl

theorem pcm16ToAlaw_method0 (enc : Int → Option Nat) :
    ∀ s : List Int, (∀ x ∈ s, isInt16 x) →
      ∃ out, pcm16ToAlaw enc s 0 = some out ∧ out.length = s.length / 2 ∧
        ∀ k, k < s.length / 2 → ∃ x, s[2 * k + 1]? = some x ∧ out[k]? = Linear2Alaw x
  | [], _ => ⟨[], rfl, rfl, fun k hk => absurd hk (by simp)⟩
  | [_], _ => ⟨[], rfl, by simp, fun k hk => absurd hk (by simp)⟩
  | x :: y :: rest, hs => by
    have hy : isInt16 y := hs y (by simp)
    have hr : ∀ z ∈ rest, isInt16 z := fun z hz => hs z (by simp [hz])
    obtain ⟨out, ho, hl, hk⟩ := pcm16ToAlaw_method0 enc rest hr
    obtain ⟨b, hb⟩ : ∃ b, Linear2Alaw y = some b := ⟨_, Linear2Alaw_closed y hy⟩
    refine ⟨b :: out, ?_, ?_, ?_⟩
    · rw [pcm16ToAlaw_cons_cons, ho]
      simp only [encodeSample, if_true, hb, Option.some_bind, Option.map_some']
    · simp only [List.length_cons, hl]
      omega
    · intro k hlt
      cases k with
      | zero => exact ⟨y, by simp, by simp [hb]⟩
      | succ k =>
        have hlt2 : k < rest.length / 2 := by
          simp only [List.length_cons] at hlt
          omega
        obtain ⟨z, hz, hoz⟩ := hk k hlt2
        refine ⟨z, ?_, ?_⟩
        · have : 2 * (k + 1) + 1 = (2 * k + 1) + 1 + 1 := by omega
          rw [this, List.getElem?_cons_succ, List.getElem?_cons_succ]
          exact hz
        · rw [List.getElem?_cons_succ]
          exact hoz

/-! ## C2 and C6: single values -/

/-- C2, evaluation of the code at the extreme samples: `Linear2Alaw 32767` is
`0x9A` and `Linear2Alaw (-32768)` is `0x1A` (segment 4, quantization 15), not
the saturated codes `0x7F XOR 0xD5 = 0xAA` and `0x7F XOR 0x55 = 0x2A`. -/
theorem Linear2Alaw_extremes :
    Linear2Alaw 32767 = some 0x9A ∧ Linear2Alaw (-32768) = some 0x1A ∧
    segmentOf 32767 = some 4 ∧ segmentOf (-32768) = some 4 ∧
    Linear2Alaw 32767 ≠ some (0x7F ^^^ 0xD5) ∧ Linear2Alaw (-32768) ≠ some (0x7F ^^^ 0x55) := by
  decide

/-- C6: the sample 0 encodes to `0xD5`. -/
theorem Linear2Alaw_zero : Linear2Alaw 0 = some 0xD5 := by
  decide

/-! ## C3 and C10: decimation -/

/-- C3: for a sequence `s` of `int16` samples, `pcm16ToAlaw s 0` returns
`s.length / 2` bytes and byte `k` is `Linear2Alaw` of sample `2 * k + 1`
(0-based): the samples at even 1-based positions, in order. -/
theorem pcm16ToAlaw_decimates (enc : Int → Option Nat) (s : List Int) (hs : ∀ x ∈ s, isInt16 x) :
    ∃ out, pcm16ToAlaw enc s 0 = some out ∧ out.length = s.length / 2 ∧
      ∀ k, k < s.length / 2 → ∃ x, s[2 * k + 1]? = some x ∧ out[k]? = Linear2Alaw x :=
  pcm16ToAlaw_method0 enc s hs

/-- Witness for C3: the sequence 1, 2, 3, 4, 5, 6 yields the three bytes
`Linear2Alaw 2`, `Linear2Alaw 4`, `Linear2Alaw 6`, each `0xD5`. -/
theorem pcm16ToAlaw_decimates_witness :
    (∀ x ∈ [1, 2, 3, 4, 5, 6], isInt16 x) ∧
    (∃ out, pcm16ToAlaw (fun _ => none) [1, 2, 3, 4, 5, 6] 0 = some out ∧
      out.length = [(1 : Int), 2, 3, 4, 5, 6].length / 2 ∧
      ∀ k, k < [(1 : Int), 2, 3, 4, 5, 6].length / 2 →
        ∃ x, [(1 : Int), 2, 3, 4, 5, 6][2 * k + 1]? = some x ∧ out[k]? = Linear2Alaw x) ∧
    pcm16ToAlaw (fun _ => none) [1, 2, 3, 4, 5, 6] 0 = some [0xD5, 0xD5, 0xD5] ∧
    Linear2Alaw 2 = some 0xD5 ∧ Linear2Alaw 4 = some 0xD5 ∧ Linear2Alaw 6 = some 0xD5 :=
  ⟨by decide, pcm16ToAlaw_decimates (fun _ => none) [1, 2, 3, 4, 5, 6] (by decide),
    by decide, by decide, by decide, by decide⟩

/-- C10: when `a` has even length, `pcm16ToAlaw (a ++ b) m` is the output for
`a` followed by the output for `b`, for every method `m` (and it fails exactly
when one of the two chunks fails). -/
theorem pcm16ToAlaw_append (enc : Int → Option Nat) (a b : List Int) (m : Int)
    (ha : a.length % 2 = 0) :
    pcm16ToAlaw enc (a ++ b) m =
      ((pcm16ToAlaw enc a m).bind fun x => (pcm16ToAlaw enc b m).map fun y => x ++ y) ∧
    ∀ x y, pcm16ToAlaw enc a m = some x → pcm16ToAlaw enc b m = some y →
      pcm16ToAlaw enc (a ++ b) m = some (x ++ y) := by
  have key : pcm16ToAlaw enc (a ++ b) m =
      ((pcm16ToAlaw enc a m).bind fun x => (pcm16ToAlaw enc b m).map fun y => x ++ y) := by
    unfold pcm16ToAlaw
    rw [pcm16ToAlawLoop_append]
    congr 1
    funext x
    have hl : 0 + a.length = 0 + 2 * (a.length / 2) := by omega
    rw [hl, pcm16ToAlawLoop_add_even, pcm16ToAlawLoop_buf]
  refine ⟨key, ?_⟩
  intro x y hx hy
  rw [key, hx, hy]
  rfl

/-- Witness for C10: chunks 1, 2 and 3, 4, 5 under method 0. -/
theorem pcm16ToAlaw_append_witness :
    [(1 : Int), 2].length % 2 = 0 ∧
    (pcm16ToAlaw (fun _ => none) ([1, 2] ++ [3, 4, 5]) 0 =
      ((pcm16ToAlaw (fun _ => none) [1, 2] 0).bind fun x =>
        (pcm16ToAlaw (fun _ => none) [3, 4, 5] 0).map fun y => x ++ y) ∧
    ∀ x y, pcm16ToAlaw (fun _ => none) [1, 2] 0 = some x →
      pcm16ToAlaw (fun _ => none) [3, 4, 5] 0 = some y →
      pcm16ToAlaw (fun _ => none) ([1, 2] ++ [3, 4, 5]) 0 = some (x ++ y)) :=
  ⟨by decide, pcm16ToAlaw_append (fun _ => none) [1, 2] [3, 4, 5] 0 (by decide)⟩

/-! ## C5: segment selection is monotone -/

/-- C5 as stated fails: samples 2048 and -2048 have shifted values 256 and
-256 of equal absolute value, but `Linear2Alaw` selects segment 1 for the
first and segment 0 for the second. -/
theorem segment_not_monotone_in_abs :
    ¬ ∀ v1 v2 : Int, isInt16 v1 → isInt16 v2 →
      (shifted v1).natAbs ≤ (shifted v2).natAbs →
      ∀ s1 s2 : Int, segmentOf v1 = some s1 → segmentOf v2 = some s2 → s1 ≤ s2 := by
  intro h
  have h1 : segmentOf 2048 = some 1 := by decide
  have h2 : segmentOf (-2048) = some 0 := by decide
  have := h 2048 (-2048) (by decide) (by decide) (by decide) 1 0 h1 h2
  omega

/-- C5, amended: segment selection is monotone in the shifted,
magnitude-adjusted value `m` (`v >> 3` when non-negative, `-(v >> 3) - 1`
otherwise): if `m1 ≤ m2` then the segment of `v1` is at most that of `v2`. -/
theorem segment_monotone (v1 v2 : Int) (h1 : isInt16 v1) (h2 : isInt16 v2)
    (hm : magnitude (shifted v1) ≤ magnitude (shifted v2)) :
    ∃ s1 s2 : Int, segmentOf v1 = some s1 ∧ segmentOf v2 = some s2 ∧ s1 ≤ s2 := by
  refine ⟨_, _, segmentOf_closed v1 h1, segmentOf_closed v2 h2, ?_⟩
  have h0 := (magnitude_shifted_range v1 h1).1
  have := segNat_mono (magnitude (shifted v1)).toNat (magnitude (shifted v2)).toNat (by omega)
  omega

/-- Witness for C5: samples 100 and -2048 have magnitudes 12 and 255. -/
theorem segment_monotone_witness :
    isInt16 100 ∧ isInt16 (-2048) ∧ magnitude (shifted 100) ≤ magnitude (shifted (-2048)) ∧
    ∃ s1 s2 : Int, segmentOf 100 = some s1 ∧ segmentOf (-2048) = some s2 ∧ s1 ≤ s2 :=
  ⟨by decide, by decide, by decide,
    segment_monotone 100 (-2048) (by decide) (by decide) (by decide)⟩

/-! ## C7: the smallest negative magnitude -/

/-- C7: a negative sample has shifted, magnitude-adjusted value 0 exactly when
it lies in `[-8, -1]`, and every such sample encodes to `0x55`. -/
theorem Linear2Alaw_neg_zero (v : Int) (h : isInt16 v) (hn : v < 0) :
    (magnitude (shifted v) = 0 ↔ -8 ≤ v) ∧
    (magnitude (shifted v) = 0 → Linear2Alaw v = some 0x55) := by
  have hs : shifted v < 0 := by rw [shifted_eq_div]; omega
  have hmag : magnitude (shifted v) = -(v / 8) - 1 := by
    obtain ⟨h1, h2⟩ := h
    rw [shifted_eq_div]
    unfold magnitude wrap16
    split <;> omega
  refine ⟨by rw [hmag]; omega, ?_⟩
  intro hm
  rw [Linear2Alaw_closed v h, hm, toByte_signMask, if_neg (by omega)]
  rfl

/-- Witness for C7: the sample -1. -/
theorem Linear2Alaw_neg_zero_witness :
    isInt16 (-1) ∧ (-1 : Int) < 0 ∧ magnitude (shifted (-1)) = 0 ∧
    Linear2Alaw (-1) = some 0x55 :=
  ⟨by decide, by decide, by decide,
    (Linear2Alaw_neg_zero (-1) (by decide) (by decide)).2 (by decide)⟩

/-! ## C9: totality -/

/-- C9: on every `int16` sample `Linear2Alaw` returns a byte: `search` reads
`segEnd` only inside its bounds and returns a segment number in `0..7`, the
shift count `seg + 3` is non-negative, and no panic is reached.  The search
itself succeeds on `segEnd` for every value, with a result in `0..8`. -/
theorem Linear2Alaw_total (v : Int) (h : isInt16 v) :
    (∃ seg b, segmentOf v = some seg ∧ 0 ≤ seg ∧ seg < 8 ∧ 0 ≤ seg + 3 ∧
      Linear2Alaw v = some b ∧ b < 256) ∧
    (∀ val : Int, ∃ r, search val segEnd 8 = some r ∧ 0 ≤ r ∧ r ≤ 8) := by
  constructor
  · refine ⟨_, _, segmentOf_closed v h, ?_, ?_, ?_, Linear2Alaw_closed v h, ?_⟩
    · omega
    · have := segNat_le (magnitude (shifted v)).toNat
      omega
    · omega
    · apply codeNat_lt
      rw [toByte_signMask]
      split <;> decide
  · intro val
    rw [search_segEnd]
    split_ifs <;> exact ⟨_, rfl, by decide, by decide⟩

/-- Witness for C9: the most negative sample. -/
theorem Linear2Alaw_total_witness :
    isInt16 (-32768) ∧
    ((∃ seg b, segmentOf (-32768) = some seg ∧ 0 ≤ seg ∧ seg < 8 ∧ 0 ≤ seg + 3 ∧
      Linear2Alaw (-32768) = some b ∧ b < 256) ∧
    (∀ val : Int, ∃ r, search val segEnd 8 = some r ∧ 0 ≤ r ∧ r ≤ 8)) :=
  ⟨by decide, Linear2Alaw_total (-32768) (by decide)⟩

/-! ## C4: bit layout of the code -/

/-- C4: for an `int16` sample `v` with segment number `seg` and byte
`b = Linear2Alaw v`, the code `c = b XOR 0x55` has bit 7 set exactly when
`v ≥ 0`, bits 6-4 equal to `seg` (7 when `seg ≥ 8`) and bits 3-0 equal to the
quantization field of the magnitude (`0xF` when `seg ≥ 8`).  The second part
is the saturated path of lines 62-63: for every `seg ≥ 8` the returned byte,
XOR-ed with `0x55`, has the same sign bit, segment bits 7 and low nibble
`0xF`. -/
theorem Linear2Alaw_bit_layout (v : Int) (h : isInt16 v) :
    (∃ seg b, segmentOf v = some seg ∧ Linear2Alaw v = some b ∧
      ((b ^^^ 0x55).testBit 7 = true ↔ 0 ≤ v) ∧
      ((((b ^^^ 0x55) >>> 4) &&& 7 : Nat) : Int) = (if seg ≥ 8 then 7 else seg) ∧
      (b ^^^ 0x55) &&& 0xF =
        (if seg ≥ 8 then 0xF
         else if seg < 2 then
           toByte (Int.land (Int.shiftRight (magnitude (shifted v)) 4) QUANT_MASK)
         else
           toByte (Int.land (Int.shiftRight (magnitude (shifted v)) (seg + 3).toNat)
             QUANT_MASK))) ∧
    (∀ seg : Int, seg ≥ 8 →
      ∃ b, combine seg (magnitude (shifted v)) (signMask (shifted v)) = some b ∧
        ((b ^^^ 0x55).testBit 7 = true ↔ 0 ≤ v) ∧
        ((b ^^^ 0x55) >>> 4) &&& 7 = 7 ∧ (b ^^^ 0x55) &&& 0xF = 0xF) := by
  have hsign : 0 ≤ shifted v ↔ 0 ≤ v := by rw [shifted_eq_div]; omega
  constructor
  · obtain ⟨h0, _⟩ := magnitude_shifted_range v h
    have hseg := segmentOf_closed v h
    have hb := Linear2Alaw_closed v h
    obtain ⟨n, hn⟩ := Int.eq_ofNat_of_zero_le h0
    rw [hn, Int.toNat_ofNat] at hseg hb
    rw [toByte_signMask] at hb
    have h5 : segNat n < 5 := by have := segNat_le n; omega
    obtain ⟨⟨p1, p2, p3⟩, ⟨n1, n2, n3⟩⟩ := layout_check (segNat n) h5 (quantNat n) (quantNat_lt n)
    have h8 : ¬ (((segNat n : Nat) : Int) ≥ 8) := by omega
    have hq : quantNat n =
        (if ((segNat n : Nat) : Int) < 2 then
           toByte (Int.land (Int.shiftRight (magnitude (shifted v)) 4) QUANT_MASK)
         else
           toByte (Int.land (Int.shiftRight (magnitude (shifted v))
             (((segNat n : Nat) : Int) + 3).toNat) QUANT_MASK)) := by
      have ht : (((segNat n : Nat) : Int) + 3).toNat = segNat n + 3 := by omega
      rw [hn, ht, quant_field, quant_field]
      unfold quantNat
      by_cases h2 : segNat n < 2
      · have : ((segNat n : Nat) : Int) < 2 := by omega
        rw [if_pos h2, if_pos this]
        norm_num
      · have : ¬ (((segNat n : Nat) : Int) < 2) := by omega
        rw [if_neg h2, if_neg this]
    refine ⟨_, _, hseg, hb, ?_⟩
    rw [if_neg h8, if_neg h8, ← hq]
    unfold codeNat
    by_cases hv : 0 ≤ shifted v
    · rw [if_pos hv]
      exact ⟨⟨fun _ => hsign.1 hv, fun _ => p3⟩, by rw [p1], p2⟩
    · rw [if_neg hv]
      refine ⟨⟨fun hc => ?_, fun hc => absurd (hsign.2 hc) hv⟩, by rw [n1], n2⟩
      rw [n3] at hc
      exact absurd hc (by decide)
  · intro seg hs
    unfold combine
    rw [if_pos hs]
    refine ⟨_, rfl, ?_⟩
    unfold signMask
    by_cases hv : shifted v ≥ 0
    · rw [if_pos hv]
      exact ⟨⟨fun _ => hsign.1 hv, fun _ => by decide⟩, by decide, by decide⟩
    · rw [if_neg hv]
      exact ⟨⟨fun hc => absurd hc (by decide), fun hc => absurd (hsign.2 hc) hv⟩,
        by decide, by decide⟩

/-- Witness for C4: the sample -1000. -/
theorem Linear2Alaw_bit_layout_witness :
    isInt16 (-1000) ∧
    ((∃ seg b, segmentOf (-1000) = some seg ∧ Linear2Alaw (-1000) = some b ∧
      ((b ^^^ 0x55).testBit 7 = true ↔ (0 : Int) ≤ -1000) ∧
      ((((b ^^^ 0x55) >>> 4) &&& 7 : Nat) : Int) = (if seg ≥ 8 then 7 else seg) ∧
      (b ^^^ 0x55) &&& 0xF =
        (if seg ≥ 8 then 0xF
         else if seg < 2 then
           toByte (Int.land (Int.shiftRight (magnitude (shifted (-1000))) 4) QUANT_MASK)
         else
           toByte (Int.land (Int.shiftRight (magnitude (shifted (-1000))) (seg + 3).toNat)
             QUANT_MASK))) ∧
    (∀ seg : Int, seg ≥ 8 →
      ∃ b, combine seg (magnitude (shifted (-1000))) (signMask (shifted (-1000))) = some b ∧
        ((b ^^^ 0x55).testBit 7 = true ↔ (0 : Int) ≤ -1000) ∧
        ((b ^^^ 0x55) >>> 4) &&& 7 = 7 ∧ (b ^^^ 0x55) &&& 0xF = 0xF)) :=
  ⟨by decide, Linear2Alaw_bit_layout (-1000) (by decide)⟩

/-! ## C8: little-endian serialization -/

/-- C8: `pcm16bytes amp` returns `2 * amp.length` bytes; for every index `i`
of `amp`, byte `2 * i` is the low eight bits of `uint16 amp[i]` and byte
`2 * i + 1` its high eight bits. -/
theorem pcm16bytes_little_endian (amp : List Int) :
    ∃ out, pcm16bytes amp = some out ∧ out.length = 2 * amp.length ∧
      ∀ i x, amp[i]? = some x →
        out[2 * i]? = some (uint16 x % 256) ∧ out[2 * i + 1]? = some (uint16 x / 256) := by
  obtain ⟨res, hres, hl, _, hb⟩ :=
    pcm16bytesLoop_spec amp 0 (List.replicate (2 * amp.length) 0) (by simp)
  refine ⟨res, hres, by simpa using hl, ?_⟩
  intro i x hx
  obtain ⟨b0, b1⟩ := hb i x hx
  rw [Nat.zero_add] at b0 b1
  refine ⟨b0, ?_⟩
  rw [b1]
  have := uint16_lt x
  congr 1
  omega

/-! ## C11: the contract of `search` -/

theorem searchLoop_spec (val : Int) (table : List Int) (size : Int) :
    ∀ (n i : Nat), i + n ≤ table.length → size = ((i + n : Nat) : Int) →
      (∀ j t, j < i → table[j]? = some t → t < val) →
      ∃ r : Nat, searchLoop val table size n i = some (r : Int) ∧ i ≤ r ∧ r ≤ i + n ∧
        (∀ j t, j < r → table[j]? = some t → t < val) ∧
        (r < i + n → ∃ t, table[r]? = some t ∧ val ≤ t) := by
  intro n
  induction n with
  | zero =>
    intro i _ hs hlow
    refine ⟨i, ?_, le_refl i, le_refl _, hlow, fun h => absurd h (lt_irrefl _)⟩
    simp only [searchLoop, hs, Nat.add_zero]
  | succ n ih =>
    intro i hlen hs hlow
    have hi : i < table.length := by omega
    have ht : table[i]? = some table[i] := List.getElem?_eq_getElem hi
    by_cases hv : val ≤ table[i]
    · refine ⟨i, ?_, le_refl i, by omega, hlow, fun _ => ⟨table[i], ht, hv⟩⟩
      simp only [searchLoop, ht, if_pos hv]
    · have hlow2 : ∀ j t, j < i + 1 → table[j]? = some t → t < val := by
        intro j t hj hjt
        by_cases hji : j < i
        · exact hlow j t hji hjt
        · have : j = i := by omega
          subst this
          rw [ht] at hjt
          have := Option.some.inj hjt
          omega
      obtain ⟨r, hr, h1, h2, h3, h4⟩ :=
        ih (i + 1) (by omega) (by rw [hs]; congr 1; omega) hlow2
      refine ⟨r, ?_, by omega, by omega, h3, fun h => h4 (by omega)⟩
      simp only [searchLoop, ht, if_neg hv]
      exact hr

/-- C11 as stated fails for a negative `size`, which satisfies
`size ≤ len(table)`: `search 0 [] (-1)` runs no iteration and returns `-1`, so
the result is not in `0 .. size`. -/
theorem search_negative_size :
    ¬ ∀ (val : Int) (table : List Int) (size : Int), size ≤ (table.length : Int) →
      ∃ r : Int, search val table size = some r ∧ 0 ≤ r ∧ r ≤ size := by
  intro h
  obtain ⟨r, hr, h0, _⟩ := h 0 [] (-1) (by decide)
  have e : search 0 [] (-1) = some (-1) := by decide
  rw [e] at hr
  have := Option.some.inj hr
  omega

/-- C11, amended: for `0 ≤ size ≤ len(table)`, `search val table size` returns
`r` with `0 ≤ r ≤ size`, `val > table[j]` for every `j < r`, and
`val ≤ table[r]` when `r < size`; hence `r` is the smallest index below `size`
with `val ≤ table[r]`, and `r = size` exactly when `val` exceeds every one of
the first `size` entries. -/
theorem search_spec (val : Int) (table : List Int) (size : Int)
    (h0 : 0 ≤ size) (hl : size ≤ (table.length : Int)) :
    ∃ r : Int, search val table size = some r ∧ 0 ≤ r ∧ r ≤ size ∧
      (∀ (j : Nat) (t : Int), (j : Int) < r → table[j]? = some t → val > t) ∧
      (r < size → ∃ t, table[r.toNat]? = some t ∧ val ≤ t) ∧
      (∀ (i : Nat) (t : Int), (i : Int) < size → table[i]? = some t → val ≤ t → r ≤ i) ∧
      (r = size ↔ ∀ (j : Nat) (t : Int), (j : Int) < size → table[j]? = some t → val > t) := by
  obtain ⟨n, rfl⟩ := Int.eq_ofNat_of_zero_le h0
  have hn : n ≤ table.length := by omega
  obtain ⟨r, hr, _, h2, h3, h4⟩ :=
    searchLoop_spec val table (n : Int) n 0 (by omega) (by simp)
      (fun j t hj _ => absurd hj (Nat.not_lt_zero j))
  rw [Nat.zero_add] at h2 h4
  refine ⟨(r : Int), ?_, by omega, by omega, ?_, ?_, ?_, ?_⟩
  · simpa [search] using hr
  · intro j t hj hjt
    exact h3 j t (by omega) hjt
  · intro hlt
    simpa using h4 (by omega)
  · intro i t _ hit hvt
    by_contra hc
    have := h3 i t (by omega) hit
    omega
  · constructor
    · intro hrn j t hj hjt
      exact h3 j t (by omega) hjt
    · intro hall
      by_contra hne
      obtain ⟨t, ht, hvt⟩ := h4 (by omega)
      have := hall r t (by omega) ht
      omega

/-- Witness for C11: value 300 in `segEnd` with `size = 8` gives index 1. -/
theorem search_spec_witness :
    (0 : Int) ≤ 8 ∧ (8 : Int) ≤ (segEnd.length : Int) ∧
    ∃ r : Int, search 300 segEnd 8 = some r ∧ 0 ≤ r ∧ r ≤ 8 ∧
      (∀ (j : Nat) (t : Int), (j : Int) < r → segEnd[j]? = some t → (300 : Int) > t) ∧
      (r < 8 → ∃ t, segEnd[r.toNat]? = some t ∧ (300 : Int) ≤ t) ∧
      (∀ (i : Nat) (t : Int), (i : Int) < 8 → segEnd[i]? = some t → (300 : Int) ≤ t → r ≤ i) ∧
      (r = 8 ↔ ∀ (j : Nat) (t : Int), (j : Int) < 8 → segEnd[j]? = some t → (300 : Int) > t) :=
  ⟨by decide, by decide, search_spec 300 segEnd 8 (by decide) (by decide)⟩

/-! ## C12: the magnitude is computed without overflow -/

/-- C12: for an `int16` sample the shifted value lies in `[-4096, 4095]`,
negating it and subtracting 1 stay inside `int16` (so `wrap16` changes
nothing), and the adjusted magnitude lies in `[0, 4095]`; for `-32768` it is
4095. -/
theorem magnitude_no_overflow (v : Int) (h : isInt16 v) :
    (-4096 ≤ shifted v ∧ shifted v ≤ 4095) ∧
    (shifted v < 0 → isInt16 (-(shifted v)) ∧ isInt16 (-(shifted v) - 1)) ∧
    magnitude (shifted v) = (if shifted v ≥ 0 then shifted v else -(shifted v) - 1) ∧
    (0 ≤ magnitude (shifted v) ∧ magnitude (shifted v) ≤ 4095) ∧
    magnitude (shifted (-32768)) = 4095 := by
  obtain ⟨h1, h2⟩ := h
  have hr : -4096 ≤ shifted v ∧ shifted v ≤ 4095 := by rw [shifted_eq_div]; omega
  refine ⟨hr, ?_, ?_, magnitude_shifted_range v ⟨h1, h2⟩, by decide⟩
  · intro hneg
    unfold isInt16
    omega
  · unfold magnitude wrap16
    split
    · rfl
    · omega

/-- Witness for C12: the most negative sample. -/
theorem magnitude_no_overflow_witness :
    isInt16 (-32768) ∧
    ((-4096 ≤ shifted (-32768) ∧ shifted (-32768) ≤ 4095) ∧
    (shifted (-32768) < 0 →
      isInt16 (-(shifted (-32768))) ∧ isInt16 (-(shifted (-32768)) - 1)) ∧
    magnitude (shifted (-32768)) =
      (if shifted (-32768) ≥ 0 then shifted (-32768) else -(shifted (-32768)) - 1) ∧
    (0 ≤ magnitude (shifted (-32768)) ∧ magnitude (shifted (-32768)) ≤ 4095) ∧
    magnitude (shifted (-32768)) = 4095) :=
  ⟨by decide, magnitude_no_overflow (-32768) (by decide)⟩

/-! ## C13: symmetry under one's-complement negation -/

theorem magnitude_shifted_compl (v : Int) (h : isInt16 v) :
    magnitude (shifted (-v - 1)) = magnitude (shifted v) := by
  obtain ⟨h1, h2⟩ := h
  rw [shifted_eq_div, shifted_eq_div]
  unfold magnitude wrap16
  split <;> split <;> omega

theorem codeNat_flip_sign (m : Nat) :
    codeNat m 0x55 = codeNat m 0xD5 ^^^ 0x80 ∧ codeNat m 0xD5 = codeNat m 0x55 ^^^ 0x80 := by
  unfold codeNat
  have e1 : (0xD5 : Nat) ^^^ 0x80 = 0x55 := by decide
  have e2 : (0x55 : Nat) ^^^ 0x80 = 0xD5 := by decide
  rw [Nat.xor_assoc, Nat.xor_assoc, e1, e2]
  exact ⟨rfl, rfl⟩

/-- C13: for every `int16` sample `v`, the complement `-v - 1` is again an
`int16`, gets the same segment, and `Linear2Alaw (-v - 1)` is
`Linear2Alaw v` with the sign bit `0x80` flipped. -/
theorem Linear2Alaw_complement (v : Int) (h : isInt16 v) :
    isInt16 (-v - 1) ∧ segmentOf (-v - 1) = segmentOf v ∧
    ∃ b, Linear2Alaw v = some b ∧ Linear2Alaw (-v - 1) = some (b ^^^ 0x80) := by
  have hw : isInt16 (-v - 1) := by
    obtain ⟨h1, h2⟩ := h
    unfold isInt16
    omega
  have hm := magnitude_shifted_compl v h
  refine ⟨hw, ?_, _, Linear2Alaw_closed v h, ?_⟩
  · unfold segmentOf
    rw [hm]
  · rw [Linear2Alaw_closed (-v - 1) hw, hm, toByte_signMask, toByte_signMask]
    rw [shifted_eq_div, shifted_eq_div]
    by_cases hv : 0 ≤ v
    · rw [if_neg (by omega), if_pos (by omega)]
      rw [(codeNat_flip_sign _).1]
    · rw [if_pos (by omega), if_neg (by omega)]
      rw [(codeNat_flip_sign _).2]

/-- Witness for C13: the sample 1000 and its complement -1001. -/
theorem Linear2Alaw_complement_witness :
    isInt16 1000 ∧
    (isInt16 (-1000 - 1) ∧ segmentOf (-1000 - 1) = segmentOf 1000 ∧
    ∃ b, Linear2Alaw 1000 = some b ∧ Linear2Alaw (-1000 - 1) = some (b ^^^ 0x80)) :=
  ⟨by decide, Linear2Alaw_complement 1000 (by decide)⟩

/-! ## C14: the worked example of the comment -/

/-- C14, evaluation of the code at `pcm_val = 0x7000`: the sample is shifted to
`0xE00`, so `Linear2Alaw` selects segment 4, not 7, and returns `0x99`; the
un-masked code `0x99 XOR 0xD5 = 0x4C` has segment bits 4 and low nibble
`0xC`. -/
theorem Linear2Alaw_worked_example :
    segmentOf 0x7000 = some 4 ∧ segmentOf 0x7000 ≠ some 7 ∧
    magnitude (shifted 0x7000) = 0xE00 ∧
    Linear2Alaw 0x7000 = some 0x99 ∧
    (((0x99 : Nat) ^^^ 0xD5) >>> 4) &&& 7 = 4 ∧ ((0x99 : Nat) ^^^ 0xD5) &&& 0xF = 0xC := by
  decide

/-! ## C16: the reachable segments -/

/-- C16: for every `int16` sample the segment number is at most 4, so the
branch `seg ≥ 8` is not taken, the byte is neither `0x7F XOR 0xD5` nor
`0x7F XOR 0x55`, and bits 6-4 of the byte XOR `0x55` are at most 4. -/
theorem segment_at_most_four (v : Int) (h : isInt16 v) :
    ∃ seg b, segmentOf v = some seg ∧ 0 ≤ seg ∧ seg ≤ 4 ∧ ¬ (seg ≥ 8) ∧
      Linear2Alaw v = some b ∧ b ≠ 0x7F ^^^ 0xD5 ∧ b ≠ 0x7F ^^^ 0x55 ∧
      ((b ^^^ 0x55) >>> 4) &&& 7 ≤ 4 := by
  have h4 := segNat_le (magnitude (shifted v)).toNat
  have h5 : segNat (magnitude (shifted v)).toNat < 5 := by omega
  obtain ⟨⟨p1, _, _⟩, ⟨n1, _, _⟩⟩ :=
    layout_check _ h5 _ (quantNat_lt (magnitude (shifted v)).toNat)
  have hbits : ((codeNat (magnitude (shifted v)).toNat (toByte (signMask (shifted v)))
      ^^^ 0x55) >>> 4) &&& 7 ≤ 4 := by
    rw [toByte_signMask]
    unfold codeNat
    split
    · rw [p1]; exact h4
    · rw [n1]; exact h4
  refine ⟨_, _, segmentOf_closed v h, by omega, by omega, by omega,
    Linear2Alaw_closed v h, ?_, ?_, hbits⟩
  · intro hb
    rw [hb] at hbits
    exact absurd hbits (by decide)
  · intro hb
    rw [hb] at hbits
    exact absurd hbits (by decide)

/-- Witness for C16: the largest sample. -/
theorem segment_at_most_four_witness :
    isInt16 32767 ∧
    ∃ seg b, segmentOf 32767 = some seg ∧ 0 ≤ seg ∧ seg ≤ 4 ∧ ¬ (seg ≥ 8) ∧
      Linear2Alaw 32767 = some b ∧ b ≠ 0x7F ^^^ 0xD5 ∧ b ≠ 0x7F ^^^ 0x55 ∧
      ((b ^^^ 0x55) >>> 4) &&& 7 ≤ 4 :=
  ⟨by decide, segment_at_most_four 32767 (by decide)⟩

/-! ## C17: the magnitude code is monotone -/

theorem magCode_closed (m : Nat) (hm : m ≤ 4095) :
    segNat m * 16 + quantNat m =
      if m ≤ 511 then m / 16 else if m ≤ 1023 then 16 + m / 32
      else if m ≤ 2047 then 32 + m / 64 else 48 + m / 128 := by
  by_cases h0 : m ≤ 255
  · have hs : segNat m = 0 := by simp [segNat, h0]
    have hq : quantNat m = m / 16 % 16 := by simp [quantNat, hs]
    rw [hs, hq, if_pos (by omega)]
    omega
  by_cases h1 : m ≤ 511
  · have hs : segNat m = 1 := by simp [segNat, h0, h1]
    have hq : quantNat m = m / 16 % 16 := by simp [quantNat, hs]
    rw [hs, hq, if_pos h1]
    omega
  by_cases h2 : m ≤ 1023
  · have hs : segNat m = 2 := by simp [segNat, h0, h1, h2]
    have hq : quantNat m = m / 32 % 16 := by simp [quantNat, hs]
    rw [hs, hq, if_neg h1, if_pos h2]
    omega
  by_cases h3 : m ≤ 2047
  · have hs : segNat m = 3 := by simp [segNat, h0, h1, h2, h3]
    have hq : quantNat m = m / 64 % 16 := by simp [quantNat, hs]
    rw [hs, hq, if_neg h1, if_neg h2, if_pos h3]
    omega
  · have hs : segNat m = 4 := by simp [segNat, h0, h1, h2, h3]
    have hq : quantNat m = m / 128 % 16 := by simp [quantNat, hs]
    rw [hs, hq, if_neg h1, if_neg h2, if_neg h3]
    omega

theorem magCode_mono (a b : Nat) (hab : a ≤ b) (hb : b ≤ 4095) :
    segNat a * 16 + quantNat a ≤ segNat b * 16 + quantNat b := by
  rw [magCode_closed a (by omega), magCode_closed b hb]
  split_ifs <;> omega

theorem magCode_check :
    ∀ s < 5, ∀ q < 16,
      (((s * 16 ||| q) ^^^ 0xD5) ^^^ 0x55) &&& 0x7F = s * 16 + q ∧
      (((s * 16 ||| q) ^^^ 0x55) ^^^ 0x55) &&& 0x7F = s * 16 + q := by
  decide

theorem magCode_of_codeNat (m : Nat) (p : Int) :
    (codeNat m (toByte (signMask p)) ^^^ 0x55) &&& 0x7F = segNat m * 16 + quantNat m := by
  have h5 : segNat m < 5 := by have := segNat_le m; omega
  obtain ⟨c1, c2⟩ := magCode_check (segNat m) h5 (quantNat m) (quantNat_lt m)
  rw [toByte_signMask]
  unfold codeNat
  split
  · exact c1
  · exact c2

/-- C17: for `int16` samples `v1`, `v2` with adjusted magnitudes `m1 ≤ m2`,
the 7-bit magnitude code `(Linear2Alaw v XOR 0x55) AND 0x7F` of `v1` is at most
that of `v2`. -/
theorem magnitude_code_monotone (v1 v2 : Int) (h1 : isInt16 v1) (h2 : isInt16 v2)
    (hm : magnitude (shifted v1) ≤ magnitude (shifted v2)) :
    ∃ b1 b2, Linear2Alaw v1 = some b1 ∧ Linear2Alaw v2 = some b2 ∧
      (b1 ^^^ 0x55) &&& 0x7F ≤ (b2 ^^^ 0x55) &&& 0x7F := by
  refine ⟨_, _, Linear2Alaw_closed v1 h1, Linear2Alaw_closed v2 h2, ?_⟩
  rw [magCode_of_codeNat, magCode_of_codeNat]
  obtain ⟨a0, _⟩ := magnitude_shifted_range v1 h1
  obtain ⟨_, b1⟩ := magnitude_shifted_range v2 h2
  exact magCode_mono _ _ (by omega) (by omega)

/-- Witness for C17: samples -300 and 5000 have magnitudes 37 and 625. -/
theorem magnitude_code_monotone_witness :
    isInt16 (-300) ∧ isInt16 5000 ∧ magnitude (shifted (-300)) ≤ magnitude (shifted 5000) ∧
    ∃ b1 b2, Linear2Alaw (-300) = some b1 ∧ Linear2Alaw 5000 = some b2 ∧
      (b1 ^^^ 0x55) &&& 0x7F ≤ (b2 ^^^ 0x55) &&& 0x7F :=
  ⟨by decide, by decide, by decide,
    magnitude_code_monotone (-300) 5000 (by decide) (by decide) (by decide)⟩

/-! ## C18: methods other than 0 and 1 -/

theorem pcm16ToAlaw_other (enc : Int → Option Nat) (method : Int) (h0 : method ≠ 0) (h1 : method ≠ 1) :
    ∀ s : List Int, pcm16ToAlaw enc s method = some (List.replicate (s.length / 2) 0)
  | [] => rfl
  | [_] => by simp [pcm16ToAlaw, pcm16ToAlawLoop]
  | x :: y :: rest => by
    have ih := pcm16ToAlaw_other enc method h0 h1 rest
    have he : encodeSample enc method y = some 0 := by simp [encodeSample, h0, h1]
    have hl : (x :: y :: rest).length / 2 = rest.length / 2 + 1 := by
      simp only [List.length_cons]
      omega
    rw [pcm16ToAlaw_cons_cons, he, ih, hl]
    rfl

/-- C18: for a method other than 0 and 1, `pcm16ToAlaw` does not fail and
returns `s.length / 2` bytes, all `0x00`. -/
theorem pcm16ToAlaw_other_method (enc : Int → Option Nat) (s : List Int) (method : Int)
    (h0 : method ≠ 0) (h1 : method ≠ 1) :
    pcm16ToAlaw enc s method = some (List.replicate (s.length / 2) 0x00) :=
  pcm16ToAlaw_other enc method h0 h1 s

/-- Witness for C18: method 2 on five samples gives two zero bytes. -/
theorem pcm16ToAlaw_other_method_witness :
    (2 : Int) ≠ 0 ∧ (2 : Int) ≠ 1 ∧
    pcm16ToAlaw (fun _ => none) [100, -200, 300, -400, 500] 2 =
      some (List.replicate ([(100 : Int), -200, 300, -400, 500].length / 2) 0x00) :=
  ⟨by decide, by decide,
    pcm16ToAlaw_other_method (fun _ => none) [100, -200, 300, -400, 500] 2 (by decide) (by decide)⟩

/-! ## C15: the quantization shortcut of the comment -/

theorem shift_sub_base (n k : Nat) (hlo : 2 ^ (k + 4) ≤ n) (hhi : n < 2 ^ (k + 5)) :
    Int.shiftRight ((n : Int) - 2 ^ (k + 4)) k =
      Int.land (Int.shiftRight (n : Int) k) QUANT_MASK := by
  have h1 : Int.shiftRight (n : Int) k = ((n >>> k : Nat) : Int) := rfl
  have h2 : (n : Int) - 2 ^ (k + 4) = ((n - 2 ^ (k + 4) : Nat) : Int) := by
    rw [Nat.cast_sub hlo]
    norm_cast
  have h3 : Int.shiftRight (((n - 2 ^ (k + 4) : Nat) : Int)) k =
      (((n - 2 ^ (k + 4)) >>> k : Nat) : Int) := rfl
  rw [h1, land_quant, h2, h3, Nat.shiftRight_eq_div_pow, Nat.shiftRight_eq_div_pow]
  congr 1
  have hk : 0 < 2 ^ k := Nat.two_pow_pos k
  have e4 : 2 ^ (k + 4) = 16 * 2 ^ k := by rw [pow_add]; omega
  have e5 : 2 ^ (k + 5) = 32 * 2 ^ k := by rw [pow_add]; omega
  have hd : (n - 2 ^ (k + 4)) / 2 ^ k = n / 2 ^ k - 16 := by
    rw [e4, Nat.mul_comm 16, Nat.sub_mul_div n (2 ^ k) 16 (by rw [Nat.mul_comm, ← e4]; exact hlo)]
  have hge : 16 ≤ n / 2 ^ k := by
    rw [Nat.le_div_iff_mul_le hk, ← e4]
    exact hlo
  have hlt : n / 2 ^ k < 32 := by
    rw [Nat.div_lt_iff_lt_mul hk, ← e5]
    exact hhi
  rw [hd]
  omega

theorem add_eq_or_check :
    ∀ s < 8, ∀ q < 16, s * 16 + q = s * 16 ||| q := by
  decide

/-- C15: for a segment `s` in `1..7` and a value `val` with
`segEnd[s-1] < val ≤ segEnd[s]`, that is `2^(s+7) ≤ val ≤ 2^(s+8) - 1`,
subtracting the segment base and shifting by `s + 3` equals the masked shift
`(val >> (s+3)) & QUANT_MASK`, and adding the segment offset `s << SEG_SHIFT`
equals OR-ing it. -/
theorem quantization_shortcut (s : Nat) (hs1 : 1 ≤ s) (hs7 : s ≤ 7) (val lo hi : Int)
    (hlo : segEnd[s - 1]? = some lo) (hhi : segEnd[s]? = some hi)
    (h1 : lo < val) (h2 : val ≤ hi) :
    (lo = 2 ^ (s + 7) - 1 ∧ hi = 2 ^ (s + 8) - 1) ∧
    Int.shiftRight (val - 2 ^ (s + 7)) (s + 3) =
      Int.land (Int.shiftRight val (s + 3)) QUANT_MASK ∧
    (s : Int) * 2 ^ SEG_SHIFT + Int.land (Int.shiftRight val (s + 3)) QUANT_MASK =
      Int.lor ((s : Int) * 2 ^ SEG_SHIFT) (Int.land (Int.shiftRight val (s + 3)) QUANT_MASK) := by
  have hends : lo = 2 ^ (s + 7) - 1 ∧ hi = 2 ^ (s + 8) - 1 := by
    interval_cases s <;> simp [segEnd] at hlo hhi <;> subst hlo <;> subst hhi <;>
      constructor <;> norm_num
  obtain ⟨e1, e2⟩ := hends
  have hpos : 0 ≤ val := by
    have : (0 : Int) ≤ 2 ^ (s + 7) - 1 := by
      have : (1 : Int) ≤ 2 ^ (s + 7) := one_le_pow₀ (by norm_num)
      omega
    omega
  obtain ⟨n, rfl⟩ := Int.eq_ofNat_of_zero_le hpos
  have hnlo : 2 ^ (s + 3 + 4) ≤ n := by
    have : ((2 ^ (s + 7) : Nat) : Int) ≤ (n : Int) := by push_cast; omega
    exact_mod_cast this
  have hnhi : n < 2 ^ (s + 3 + 5) := by
    have : (n : Int) < ((2 ^ (s + 8) : Nat) : Int) := by push_cast; omega
    exact_mod_cast this
  have hshift := shift_sub_base n (s + 3) hnlo hnhi
  refine ⟨⟨e1, e2⟩, hshift, ?_⟩
  have h3 : Int.shiftRight (n : Int) (s + 3) = ((n >>> (s + 3) : Nat) : Int) := rfl
  rw [h3, land_quant]
  have hq : n >>> (s + 3) % 16 < 16 := Nat.mod_lt _ (by decide)
  have hor := add_eq_or_check s (by omega) _ hq
  have hc : (s : Int) * 2 ^ SEG_SHIFT = ((s * 16 : Nat) : Int) := by simp [SEG_SHIFT]
  rw [hc]
  show _ = (((s * 16 ||| n >>> (s + 3) % 16 : Nat)) : Int)
  rw [← hor]
  push_cast
  rfl

/-- Witness for C15: segment 7 and the value `0x7000` of the comment. -/
theorem quantization_shortcut_witness :
    1 ≤ 7 ∧ 7 ≤ 7 ∧ segEnd[7 - 1]? = some 0x3FFF ∧ segEnd[7]? = some 0x7FFF ∧
    (0x3FFF : Int) < 0x7000 ∧ (0x7000 : Int) ≤ 0x7FFF ∧
    ((0x3FFF : Int) = 2 ^ (7 + 7) - 1 ∧ (0x7FFF : Int) = 2 ^ (7 + 8) - 1) ∧
    Int.shiftRight ((0x7000 : Int) - 2 ^ (7 + 7)) (7 + 3) =
      Int.land (Int.shiftRight 0x7000 (7 + 3)) QUANT_MASK ∧
    ((7 : Nat) : Int) * 2 ^ SEG_SHIFT + Int.land (Int.shiftRight 0x7000 (7 + 3)) QUANT_MASK =
      Int.lor (((7 : Nat) : Int) * 2 ^ SEG_SHIFT)
        (Int.land (Int.shiftRight 0x7000 (7 + 3)) QUANT_MASK) :=
  ⟨by decide, by decide, by decide, by decide, by decide, by decide,
    quantization_shortcut 7 (by decide) (by decide) 0x7000 0x3FFF 0x7FFF
      (by decide) (by decide) (by decide) (by decide)⟩

/-! ## C19: serialization is lossless -/

theorem wrap16_bytes (x : Int) (h : isInt16 x) :
    wrap16 (((uint16 x % 256 : Nat) : Int) + 256 * ((uint16 x / 256 % 256 : Nat) : Int)) = x := by
  obtain ⟨h1, h2⟩ := h
  unfold wrap16 uint16
  omega

theorem unpack16_of_bytes :
    ∀ (amp : List Int) (out : List Nat), (∀ x ∈ amp, isInt16 x) →
      out.length = 2 * amp.length →
      (∀ i x, amp[i]? = some x →
        out[2 * i]? = some (uint16 x % 256) ∧ out[2 * i + 1]? = some (uint16 x / 256 % 256)) →
      unpack16 out = amp := by
  intro amp
  induction amp with
  | nil =>
    intro out _ hl _
    have : out = [] := List.length_eq_zero.mp (by simpa using hl)
    subst this
    rfl
  | cons x rest ih =>
    intro out hx hl hb
    match out, hl, hb with
    | [], hl, _ => simp at hl
    | [_], hl, _ => simp only [List.length_cons, List.length_nil] at hl; omega
    | a :: b :: out2, hl, hb =>
      obtain ⟨ha, hb1⟩ := hb 0 x (by simp)
      simp only [Nat.mul_zero, List.getElem?_cons_zero, Option.some.injEq] at ha
      simp only [Nat.mul_zero, Nat.zero_add, List.getElem?_cons_succ, List.getElem?_cons_zero,
        Option.some.injEq] at hb1
      have hrest : ∀ y ∈ rest, isInt16 y := fun y hy => hx y (List.mem_cons_of_mem x hy)
      have hl2 : out2.length = 2 * rest.length := by
        simp only [List.length_cons] at hl
        omega
      have hb2 : ∀ i y, rest[i]? = some y →
          out2[2 * i]? = some (uint16 y % 256) ∧
          out2[2 * i + 1]? = some (uint16 y / 256 % 256) := by
        intro i y hy
        have h := hb (i + 1) y (by rw [List.getElem?_cons_succ]; exact hy)
        have e1 : 2 * (i + 1) = 2 * i + 1 + 1 := by omega
        rw [e1] at h
        simpa only [List.getElem?_cons_succ] using h
      show wrap16 ((a : Int) + 256 * (b : Int)) :: unpack16 out2 = x :: rest
      rw [ih out2 hrest hl2 hb2, ha, hb1, wrap16_bytes x (hx x (List.mem_cons_self x rest))]

theorem unpack16_pcm16bytes (amp : List Int) (h : ∀ x ∈ amp, isInt16 x) :
    ∃ out, pcm16bytes amp = some out ∧ unpack16 out = amp := by
  obtain ⟨res, hres, hl, _, hb⟩ :=
    pcm16bytesLoop_spec amp 0 (List.replicate (2 * amp.length) 0) (by simp)
  refine ⟨res, hres, unpack16_of_bytes amp res h (by simpa using hl) ?_⟩
  intro i x hx
  have := hb i x hx
  rwa [Nat.zero_add] at this

/-- C19: for a sequence `amp` of `int16` samples, re-assembling the byte pairs
of `pcm16bytes amp` as `low + 256 * high`, read as two's complement, gives
`amp` back; hence two `int16` sequences with the same bytes are equal. -/
theorem pcm16bytes_lossless (amp : List Int) (h : ∀ x ∈ amp, isInt16 x) :
    (∃ out, pcm16bytes amp = some out ∧ unpack16 out = amp) ∧
    (∀ amp2 : List Int, (∀ x ∈ amp2, isInt16 x) →
      pcm16bytes amp2 = pcm16bytes amp → amp2 = amp) := by
  refine ⟨unpack16_pcm16bytes amp h, ?_⟩
  intro amp2 h2 heq
  obtain ⟨o1, e1, u1⟩ := unpack16_pcm16bytes amp h
  obtain ⟨o2, e2, u2⟩ := unpack16_pcm16bytes amp2 h2
  rw [e1, e2] at heq
  have := Option.some.inj heq
  rw [← u1, ← u2, this]

/-- Witness for C19: the samples -32768, -1, 0, 258, 32767. -/
theorem pcm16bytes_lossless_witness :
    (∀ x ∈ [-32768, -1, 0, 258, 32767], isInt16 x) ∧
    pcm16bytes [-32768, -1, 0, 258, 32767] = some [0, 128, 255, 255, 0, 0, 2, 1, 255, 127] ∧
    ((∃ out, pcm16bytes [-32768, -1, 0, 258, 32767] = some out ∧
      unpack16 out = [-32768, -1, 0, 258, 32767]) ∧
    (∀ amp2 : List Int, (∀ x ∈ amp2, isInt16 x) →
      pcm16bytes amp2 = pcm16bytes [-32768, -1, 0, 258, 32767] →
      amp2 = [-32768, -1, 0, 258, 32767])) :=
  ⟨by decide, by decide, pcm16bytes_lossless [-32768, -1, 0, 258, 32767] (by decide)⟩

end G722ToG711
